import Mathlib

/-
Verification development for src/assignment2/cs231n/classifiers/fc_net.py
(classes TwoLayerNet and FullyConnectedNet).

Modelling conventions.
* Numeric tensors are lists of exact rationals: a vector is a List ℚ and a
  matrix (batch-major) is a List (List ℚ).  Floating point rounding and the
  numpy dtype mechanism are not representable; the dtype cast performed by
  the source (v.astype(dtype), X.astype(self.dtype)) is modelled by an
  abstract elementwise map castD : ℚ → ℚ carried by the network.
* The elementary layer primitives imported by fc_net.py from cs231n.layers
  and cs231n.layer_utils are code of this repository that is NOT under src/.
  Where the spec gives their formulas (affine forward/backward, relu,
  the fused affine_relu pair, softmax shape, dropout test-mode identity,
  train-mode batch normalization) they are modelled from the spec; where the
  spec gives only a contract shape (normalization backward, softmax loss,
  the stochastic train-mode dropout transform) they are oracle fields of a
  Prims record, so every theorem quantified over Prims holds for any
  implementation of those primitives, the real one included.
* String parameter keys of the source dicts ('W'+str(i), 'b'+str(i),
  'gamma'+str(i), 'beta'+str(i)) are represented by the structured key type
  PKey, and the params / grads dicts by association lists in insertion
  order; str is injective on indices, so this is faithful.
-/

namespace FcNet

abbrev Vec := List ℚ

abbrev Mat := List Vec

/-- Elementwise sum of two vectors (numpy broadcasting-free case). -/
def vecAdd (u v : Vec) : Vec := List.zipWith (fun a b => a + b) u v

/-- Dot product of two vectors. -/
def dotQ (u v : Vec) : ℚ := (List.zipWith (fun a b => a * b) u v).sum

/-- Matrix sum, entrywise. -/
def matAdd (A B : Mat) : Mat := List.zipWith vecAdd A B

/-- Scalar multiple of a matrix, entrywise: models reg * W. -/
def smulMat (c : ℚ) (A : Mat) : Mat := A.map (fun r => r.map (fun x => c * x))

/-- Matrix product: row i of A dotted with the columns of B. -/
def matMul (A B : Mat) : Mat := A.map (fun r => B.transpose.map (fun c => dotQ r c))

/-- Add a bias row-vector to every row of a matrix: models z + b broadcasting. -/
def addBias (A : Mat) (b : Vec) : Mat := A.map (fun r => vecAdd r b)

/-- Column sums of a matrix: models np.sum(dout, axis=0). -/
def colSums : Mat → Vec
  | [] => []
  | r :: rs => vecAdd r (colSums rs)

/-- Sum of squared entries of a matrix: models np.sum(W ** 2). -/
def sumSqMat (A : Mat) : ℚ := (A.map (fun r => (r.map (fun x => x * x)).sum)).sum

/-- Elementwise map over a matrix. -/
def matMap (f : ℚ → ℚ) (A : Mat) : Mat := A.map (fun r => r.map f)

/-- Elementwise rectified linear unit, max(0, value). -/
def reluMat (A : Mat) : Mat := A.map (fun r => r.map (fun x => max x 0))

/-- Cache of an affine stage: the (input, W, b) triple the source tuples up. -/
abbrev ACache := Mat × Mat × Vec

/-- Modelled from the spec: affine_forward of cs231n/layers.py (not under
src/) computes z = h @ W + b on the flattened input and caches (h, W, b).
Inputs are modelled already flattened to two dimensions. -/
def affine_forward (x W : Mat) (b : Vec) : Mat × ACache :=
  (addBias (matMul x W) b, (x, W, b))

/-- Modelled from the spec: affine_backward of cs231n/layers.py (not under
src/) returns dx = dout @ W^T, dW = x^T @ dout, db = column sums of dout. -/
def affine_backward (dout : Mat) (c : ACache) : Mat × Mat × Vec :=
  (matMul dout c.2.1.transpose, matMul c.1.transpose dout, colSums dout)

/-- Modelled from the spec: the fused affine_relu_forward of
cs231n/layer_utils.py (not under src/): relu applied to the affine output;
the cache keeps (x, W, b), from which the pre-activation is recomputable. -/
def affine_relu_forward (x W : Mat) (b : Vec) : Mat × ACache :=
  ((reluMat (addBias (matMul x W) b)), (x, W, b))

/-- Modelled from the spec: relu backward zeroes the upstream gradient
wherever the cached pre-activation was ≤ 0. -/
def reluBack (dout z : Mat) : Mat :=
  List.zipWith (fun dr zr => List.zipWith (fun d t => if 0 < t then d else 0) dr zr) dout z

/-- Modelled from the spec: affine_relu_backward of cs231n/layer_utils.py
(not under src/): relu backward on the recomputed pre-activation, then
affine backward. -/
def affine_relu_backward (dout : Mat) (c : ACache) : Mat × Mat × Vec :=
  affine_backward (reluBack dout (addBias (matMul c.1 c.2.1) c.2.2)) c

/-- Exact integer square root by bounded search; exact on the perfect
squares, which is all this development evaluates it at. -/
def natSqrtB (n : Nat) : Nat :=
  (List.range (n + 1)).foldl (fun acc k => if k * k ≤ n then k else acc) 0

/-- Exact rational square root for perfect-square nonneg rationals. -/
def ratSqrt (q : ℚ) : ℚ := (natSqrtB q.num.toNat : ℚ) / (natSqrtB q.den : ℚ)

/-- Modelled from the spec: train-mode batch normalization of
cs231n/layers.py (not under src/) rescales each feature column to zero mean
and unit variance across the minibatch, then applies the learned scale and
shift.  Square roots are exact on the perfect-square variances this
development evaluates. -/
def batchnormTrain (x : Mat) (gamma bta : Vec) : Mat :=
  let cols := x.transpose
  let ncols := cols.map (fun c =>
    let n : ℚ := c.length
    let m := c.sum / n
    let v := (c.map (fun t => (t - m) * (t - m))).sum / n
    c.map (fun t => (t - m) / ratSqrt v))
  ncols.transpose.map (fun row =>
    List.zipWith (fun gb t => gb.1 * t + gb.2) (gamma.zip bta) row)

/-- Train / test switch, set per loss call from the presence of labels. -/
inductive Mode
  | train
  | test
deriving DecidableEq

/-- Which normalization the network uses; None in the source is Option.none. -/
inductive NormKind
  | batchnorm
  | layernorm
deriving DecidableEq

/-- Structured form of the string parameter keys of the source dicts. -/
inductive PKey
  | W (i : Nat)
  | b (i : Nat)
  | gamma (i : Nat)
  | beta (i : Nat)
deriving DecidableEq

/-- A parameter or gradient tensor: weight matrices and bias / scale /
shift vectors. -/
inductive Tensor
  | m (A : Mat)
  | v (x : Vec)
deriving DecidableEq

/-- The params and grads dictionaries, as association lists in insertion
order; keys are never assigned twice by the source. -/
abbrev Params := List (PKey × Tensor)

/-- Dictionary access on an association list. -/
def aget : Params → PKey → Option Tensor
  | [], _ => none
  | (k, t) :: rest, q => if k = q then some t else aget rest q

/-- Fetch a weight matrix from the params dict (the source would raise
KeyError on a miss; a miss returns the empty matrix here). -/
def getM (ps : Params) (k : PKey) : Mat :=
  match aget ps k with
  | some (Tensor.m A) => A
  | _ => []

/-- Fetch a vector-valued parameter from the params dict. -/
def getV (ps : Params) (k : PKey) : Vec :=
  match aget ps k with
  | some (Tensor.v x) => x
  | _ => []

/-- Apply the dtype cast to a stored tensor: models v.astype(dtype). -/
def castT (f : ℚ → ℚ) : Tensor → Tensor
  | Tensor.m A => Tensor.m (matMap f A)
  | Tensor.v x => Tensor.v (x.map f)

/-- The dropout_param dictionary: mode, keep-threshold p, optional seed. -/
structure DropParam where
  mode : Mode
  p : ℚ
  seed : Option Nat
deriving DecidableEq

/-- Opaque running-statistics state owned by the batchnorm primitive;
absent before the first forward call. -/
abbrev BnSt := Option (Vec × Vec)

/-- One bn_param dictionary: its mode key (present for batchnorm, absent
for layernorm) and the primitive-owned running statistics. -/
structure BnParam where
  mode : Option Mode
  st : BnSt

/-- Cache of a normalization stage as handed to its backward primitive:
the stage input and the scale / shift used. -/
abbrev NCache := Mat × Vec × Vec

/-- Cache of a dropout stage: the call index (position in the random
stream) and the stage input. -/
abbrev DCache := Nat × Mat

/-- The external layer primitives fc_net.py imports from cs231n.layers
(code of this repository not under src/).  Spec-modelled where the spec
gives formulas, oracle-valued where it gives only a contract:
dmask is the stochastic train-mode inverted-dropout transform (indexed by
call position), dropB is dropout_backward, bnF is batchnorm_forward
(returning output and updated running-statistics state), lnF is
layernorm_forward, bnB is batchnorm_backward_alt, lnB is
layernorm_backward, smLoss is softmax_loss returning (data loss, dscores). -/
structure Prims where
  dmask : Nat → Mat → Mat
  dropB : Mat → DCache → Mat
  bnF : Mode → Mat → Vec → Vec → BnSt → Mat × BnSt
  lnF : Mat → Vec → Vec → Mat
  bnB : Mat → NCache → Mat × Vec × Vec
  lnB : Mat → NCache → Mat × Vec × Vec
  smLoss : Mat → List Nat → ℚ × Mat

/-- Modelled from the spec: dropout_forward of cs231n/layers.py (not under
src/).  In test mode it is the identity, no scaling and no mask; in train
mode it applies the stochastic inverted-dropout transform, represented by
the oracle dmask at this call position. -/
def dropout_forward (dmask : Nat → Mat → Mat) (dp : DropParam) (idx : Nat) (x : Mat) :
    Mat × DCache :=
  match dp.mode with
  | Mode.test => (x, (idx, x))
  | Mode.train => (dmask idx x, (idx, x))

/-- The FullyConnectedNet object state: fields set by __init__ at
src/assignment2/cs231n/classifiers/fc_net.py lines 145-236. -/
structure FCNet where
  numLayers : Nat
  normalization : Option NormKind
  useDropout : Bool
  reg : ℚ
  params : Params
  dropoutParam : Option DropParam
  bnParams : List BnParam
  castD : ℚ → ℚ

/-- Index of the final affine layer as the loss method computes it: i ends
at 1 + (num_layers - 1) after the hidden loop (lines 274-295). -/
def lastIdx (net : FCNet) : Nat := 1 + (net.numLayers - 1)

/-- Hidden-layer parameter allocation loop of __init__ (lines 191-202):
for each hidden dim, a weight matrix drawn from the zero-mean normal
sampler with standard deviation ws and shape (prevDim, d), a zero bias,
and, when normalization is enabled, a ones scale and zeros shift.  The
sampler oracle normal takes (scale, rows, cols, draw position). -/
def initHidden (normal : ℚ → Nat → Nat → Nat → Mat) (ws : ℚ) (norm : Option NormKind) :
    List Nat → Nat → Nat → Params
  | [], _, _ => []
  | d :: rest, prevDim, cur =>
    (PKey.W cur, Tensor.m (normal ws prevDim d cur)) ::
    (PKey.b cur, Tensor.v (List.replicate d 0)) ::
    ((if norm.isSome then
        [(PKey.gamma cur, Tensor.v (List.replicate d 1)),
         (PKey.beta cur, Tensor.v (List.replicate d 0))]
      else []) ++ initHidden normal ws norm rest d (cur + 1))

/-- FullyConnectedNet.__init__ (lines 145-236): allocates hidden-layer
parameters, then the final affine layer, casts every parameter with the
dtype map, records use_dropout = (dropout != 1), builds dropout_param only
when dropout is used, and one bn_param per hidden layer for batchnorm
(mode train) or layernorm (empty dict). -/
def fcInit (hiddenDims : List Nat) (inputDim numClasses : Nat) (dropout : ℚ)
    (norm : Option NormKind) (reg ws : ℚ) (castD : ℚ → ℚ) (seed : Option Nat)
    (normal : ℚ → Nat → Nat → Nat → Mat) : FCNet :=
  let nL := 1 + hiddenDims.length
  let hidden := initHidden normal ws norm hiddenDims inputDim 1
  let lastPrev := hiddenDims.getLastD inputDim
  let ps := hidden ++
    [(PKey.W nL, Tensor.m (normal ws lastPrev numClasses nL)),
     (PKey.b nL, Tensor.v (List.replicate numClasses 0))]
  { numLayers := nL
    normalization := norm
    useDropout := decide (dropout ≠ 1)
    reg := reg
    params := ps.map (fun kt => (kt.1, castT castD kt.2))
    dropoutParam :=
      if dropout ≠ 1 then some { mode := Mode.train, p := dropout, seed := seed } else none
    bnParams :=
      if norm = some NormKind.batchnorm then
        List.replicate (nL - 1) { mode := some Mode.train, st := none }
      else if norm = some NormKind.layernorm then
        List.replicate (nL - 1) { mode := none, st := none }
      else []
    castD := castD }

/-- Records that __init__ contains no validation and no raise of its own:
no ConfigurationError type exists in the source, and for every
representable (nonnegative) dimension configuration, zero-sized dimensions
included, construction runs to completion, so the result is always ok. -/
def fcInitChecked (hiddenDims : List Nat) (inputDim numClasses : Nat) (dropout : ℚ)
    (norm : Option NormKind) (reg ws : ℚ) (castD : ℚ → ℚ) (seed : Option Nat)
    (normal : ℚ → Nat → Nat → Nat → Mat) : Except String FCNet :=
  Except.ok (fcInit hiddenDims inputDim numClasses dropout norm reg ws castD seed normal)

/-- Mode mutation at the top of FullyConnectedNet.loss (lines 250-254):
dropout_param and, for batchnorm, every bn_param get the current mode. -/
def setModes (net : FCNet) (mode : Mode) : FCNet :=
  { net with
    dropoutParam :=
      if net.useDropout then net.dropoutParam.map (fun d => { d with mode := mode })
      else net.dropoutParam
    bnParams :=
      if net.normalization = some NormKind.batchnorm then
        net.bnParams.map (fun bp => { bp with mode := some mode })
      else net.bnParams }

/-- One hidden-layer forward step (lines 277-296): affine_relu, then the
optional normalization branch reading this layer's bn_param, then the
optional dropout branch.  Returns the stage output, the affine_relu cache,
the optional normalization and dropout caches, and the updated bn_param. -/
def layerStep (P : Prims) (ps : Params) (norm : Option NormKind) (useDrop : Bool)
    (dp : Option DropParam) (mode : Mode) (i : Nat) (cur : Mat) (bp : Option BnParam) :
    Mat × ACache × Option NCache × Option DCache × Option BnParam :=
  let Wi := getM ps (PKey.W i)
  let bi := getV ps (PKey.b i)
  let hc := affine_relu_forward cur Wi bi
  let h1 := hc.1
  let s2 : Mat × Option NCache × Option BnParam :=
    match norm with
    | some NormKind.batchnorm =>
      let g := getV ps (PKey.gamma i)
      let be := getV ps (PKey.beta i)
      let pr := P.bnF mode h1 g be ((bp.map (fun x : BnParam => x.st)).getD none)
      (pr.1, some ((h1, g, be) : NCache), bp.map (fun x : BnParam => { x with st := pr.2 }))
    | some NormKind.layernorm =>
      let g := getV ps (PKey.gamma i)
      let be := getV ps (PKey.beta i)
      (P.lnF h1 g be, some ((h1, g, be) : NCache), bp)
    | none => (h1, none, bp)
  let d3 : Mat × Option DCache :=
    if useDrop then
      match dp with
      | some d =>
        let od := dropout_forward P.dmask d i s2.1
        (od.1, some od.2)
      | none => (s2.1, none)
    else (s2.1, none)
  (d3.1, hc.2, s2.2.1, d3.2, s2.2.2)

/-- Result of the hidden-layer forward loop: final hidden activation, the
three cache lists in layer order, the bn_param list after the pass, and
the accumulated reg_sum of squared hidden weights. -/
structure HidRes where
  out : Mat
  caches : List ACache
  ncaches : List NCache
  dcaches : List DCache
  bnOut : List BnParam
  regSum : ℚ

/-- The hidden-layer forward loop (lines 276-296), by recursion on the
remaining step count with the running layer index i; the bn_param list is
threaded positionally, layer i consuming entry i-1 exactly as
self.bn_params[i-1] does. -/
def fwdAux (P : Prims) (ps : Params) (norm : Option NormKind) (useDrop : Bool)
    (dp : Option DropParam) (mode : Mode) :
    Nat → Nat → Mat → List BnParam → HidRes
  | 0, _, cur, bns => ⟨cur, [], [], [], bns, 0⟩
  | steps + 1, i, cur, bns =>
    let t := layerStep P ps norm useDrop dp mode i cur bns.head?
    let r := fwdAux P ps norm useDrop dp mode steps (i + 1) t.1 bns.tail
    ⟨r.out, t.2.1 :: r.caches, t.2.2.1.toList ++ r.ncaches, t.2.2.2.1.toList ++ r.dcaches,
      t.2.2.2.2.toList ++ r.bnOut, sumSqMat (getM ps (PKey.W i)) + r.regSum⟩

/-- Result of the full forward pass: scores, all caches and state. -/
structure FwdOut where
  scores : Mat
  caches : List ACache
  ncaches : List NCache
  dcaches : List DCache
  bnOut : List BnParam
  regSum : ℚ
  lastCache : ACache

/-- FullyConnectedNet forward pass (lines 245, 269-300): cast the input
with the dtype map, run the hidden loop, then the final plain affine
transform at index 1 + (num_layers - 1). -/
def fcForward (P : Prims) (net : FCNet) (mode : Mode) (X : Mat) : FwdOut :=
  let X2 := matMap net.castD X
  let h := fwdAux P net.params net.normalization net.useDropout net.dropoutParam mode
    (net.numLayers - 1) 1 X2 net.bnParams
  let Wl := getM net.params (PKey.W (lastIdx net))
  let bl := getV net.params (PKey.b (lastIdx net))
  let sc := affine_forward h.out Wl bl
  ⟨sc.1, h.caches, h.ncaches, h.dcaches, h.bnOut, h.regSum, sc.2⟩

/-- The backward loop over reversed caches (lines 333-347): optional
dropout backward, optional normalization backward recording dGamma and
dBeta, then affine_relu backward; the weight gradient is dW plus
reg times the stored weight, the bias gradient is db; the index i counts
down from num_layers - 1. -/
def backLoop (P : Prims) (ps : Params) (norm : Option NormKind) (useDrop : Bool)
    (reg : ℚ) (ncs : List NCache) (dcs : List DCache) :
    List ACache → Nat → Mat → Params
  | [], _, _ => []
  | c :: rest, i, dout =>
    let d1 := if useDrop then P.dropB dout (dcs.getD (i - 1) (0, [])) else dout
    let s2 : Mat × Params :=
      match norm with
      | some NormKind.batchnorm =>
        let pr := P.bnB d1 (ncs.getD (i - 1) ([], [], []))
        (pr.1, [(PKey.gamma i, Tensor.v pr.2.1), (PKey.beta i, Tensor.v pr.2.2)])
      | some NormKind.layernorm =>
        let pr := P.lnB d1 (ncs.getD (i - 1) ([], [], []))
        (pr.1, [(PKey.gamma i, Tensor.v pr.2.1), (PKey.beta i, Tensor.v pr.2.2)])
      | none => (d1, [])
    let t := affine_relu_backward s2.1 c
    s2.2 ++ (PKey.W i, Tensor.m (matAdd t.2.1 (smulMat reg (getM ps (PKey.W i))))) ::
      (PKey.b i, Tensor.v t.2.2) ::
      backLoop P ps norm useDrop reg ncs dcs rest (i - 1) t.1

/-- Gradient assembly of FullyConnectedNet.loss (lines 329-347): the final
affine backward populates the last layer's W and b gradients with no
regularization term, then the loop walks the hidden caches in reverse. -/
def fcBackward (P : Prims) (net : FCNet) (F : FwdOut) (dprob : Mat) : Params :=
  let n := lastIdx net
  let t := affine_backward dprob F.lastCache
  (PKey.W n, Tensor.m t.2.1) :: (PKey.b n, Tensor.v t.2.2) ::
    backLoop P net.params net.normalization net.useDropout net.reg F.ncaches F.dcaches
      F.caches.reverse (n - 1) t.1

/-- FullyConnectedNet.loss with labels (train mode, lines 239-354):
set modes, forward, softmax data loss plus 0.5 * reg * reg_sum, backward;
returns the loss, the grads dict, and the object state after the call. -/
def fcLoss (P : Prims) (net : FCNet) (X : Mat) (y : List Nat) : ℚ × Params × FCNet :=
  let net1 := setModes net Mode.train
  let F := fcForward P net1 Mode.train X
  let s := P.smLoss F.scores y
  (s.1 + 1 / 2 * net.reg * F.regSum, fcBackward P net1 F s.2,
    { net1 with bnParams := F.bnOut })

/-- FullyConnectedNet.loss without labels (test mode, lines 245-309):
set modes, forward, return the scores early; paired with the object state
after the call. -/
def fcTestScores (P : Prims) (net : FCNet) (X : Mat) : Mat × FCNet :=
  let net1 := setModes net Mode.test
  let F := fcForward P net1 Mode.test X
  (F.scores, { net1 with bnParams := F.bnOut })

/-- The TwoLayerNet object state (lines 25-58): params dict and reg. -/
structure TLNet where
  params : Params
  reg : ℚ

/-- TwoLayerNet.__init__ (lines 25-58): W1, b1, W2, b2 with normal-sampled
weights and zero biases; no dtype cast in this class. -/
def tlInit (inputDim hiddenDim numClasses : Nat) (ws reg : ℚ)
    (normal : ℚ → Nat → Nat → Nat → Mat) : TLNet :=
  { params :=
      [(PKey.W 1, Tensor.m (normal ws inputDim hiddenDim 1)),
       (PKey.b 1, Tensor.v (List.replicate hiddenDim 0)),
       (PKey.W 2, Tensor.m (normal ws hiddenDim numClasses 2)),
       (PKey.b 2, Tensor.v (List.replicate numClasses 0))]
    reg := reg }

/-- TwoLayerNet.loss (lines 61-126): affine_relu then affine forward;
with labels, softmax loss plus 0.5 * reg * (sum W1^2 + sum W2^2) and the
backward pass adding reg * W to both weight gradients.  Returns the
scores, the optional (loss, grads) pair, and the object state after the
call (the source writes nothing to self). -/
def tlRun (sm : Mat → List Nat → ℚ × Mat) (net : TLNet) (X : Mat)
    (y : Option (List Nat)) : Mat × Option (ℚ × Params) × TLNet :=
  let W1 := getM net.params (PKey.W 1)
  let b1 := getV net.params (PKey.b 1)
  let W2 := getM net.params (PKey.W 2)
  let b2 := getV net.params (PKey.b 2)
  let oc1 := affine_relu_forward X W1 b1
  let oc2 := affine_forward oc1.1 W2 b2
  match y with
  | none => (oc2.1, none, net)
  | some ys =>
    let s := sm oc2.1 ys
    let loss := s.1 + 1 / 2 * net.reg * (sumSqMat W1 + sumSqMat W2)
    let t2 := affine_backward s.2 oc2.2
    let t1 := affine_relu_backward t2.1 oc1.2
    (oc2.1, some (loss,
      [(PKey.W 2, Tensor.m (matAdd t2.2.1 (smulMat net.reg W2))),
       (PKey.b 2, Tensor.v t2.2.2),
       (PKey.W 1, Tensor.m (matAdd t1.2.1 (smulMat net.reg W1))),
       (PKey.b 1, Tensor.v t1.2.2)]), net)

/-- Sum of squared weight entries over the index range i, i+1, ..., i+len-1
of the params dict; used to state what reg_sum accumulates. -/
def sumSqRange (ps : Params) : Nat → Nat → ℚ
  | 0, _ => 0
  | len + 1, i => sumSqMat (getM ps (PKey.W i)) + sumSqRange ps len (i + 1)

/-- The regularization base the source actually accumulates: squared
weights of the hidden layers W_1 .. W_L only (lines 276-280). -/
def hiddenWeightSumSq (net : FCNet) : ℚ := sumSqRange net.params (net.numLayers - 1) 1

/-- Follows the spec's words: sum of squared entries of every weight
matrix W_1 .. W_{L+1}, the final layer's weights included; stated for
comparison with what the source computes. -/
def allWeightSumSq (net : FCNet) : ℚ := sumSqRange net.params (lastIdx net) 1

/-- The transformation the regularization wiring applies to the grads
dict when reg goes from 0 to r: each weight-matrix gradient with layer
index below n gains r times the stored weight; every other entry, the
index-n weight gradient included, is unchanged. -/
def regAdjust (r : ℚ) (n : Nat) (ps : Params) : Params → Params :=
  List.map (fun kt =>
    match kt with
    | (PKey.W i, Tensor.m A) =>
      if i < n then (PKey.W i, Tensor.m (matAdd A (smulMat r (getM ps (PKey.W i))))) else kt
    | _ => kt)

/-- Follows the spec's words (section 4.2): a hidden layer computes the
affine transform, then normalization on the pre-activation, then relu;
stated to compare against the implementation's stage order (dropout
disabled). -/
def specOrderHiddenLayer (normF : Mat → Vec → Vec → Mat) (x W : Mat) (b g be : Vec) : Mat :=
  reluMat (normF (addBias (matMul x W) b) g be)

/-- Key list laid down by the hidden-layer part of __init__, in insertion
order, for len layers starting at index cur. -/
def hidKeys (hasN : Bool) : Nat → Nat → List PKey
  | 0, _ => []
  | len + 1, cur =>
    PKey.W cur :: PKey.b cur ::
      ((if hasN then [PKey.gamma cur, PKey.beta cur] else []) ++ hidKeys hasN len (cur + 1))

/-- Key list laid down by the backward loop, in insertion order, for len
iterations with the index counting down from i. -/
def backKeys (hasN : Bool) : Nat → Nat → List PKey
  | 0, _ => []
  | len + 1, i =>
    (if hasN then [PKey.gamma i, PKey.beta i] else []) ++
      PKey.W i :: PKey.b i :: backKeys hasN len (i - 1)

/-- Layer dimension sequence inputDim, hiddenDims..., numClasses; entry
j-1 is layer j's input dimension and entry j its output dimension. -/
def dimAt (hd : List Nat) (inD nC j : Nat) : Nat := (inD :: (hd ++ [nC])).getD j 0

/-- A deterministic stand-in for the normal sampler, used only to build
concrete networks for witnesses and counterexamples. -/
def zeroSampler : ℚ → Nat → Nat → Nat → Mat :=
  fun _ r c _ => List.replicate r (List.replicate c 0)

/-- A concrete instantiation of the external primitives, used to evaluate
witnesses and counterexamples; the properties under test are proved for
every Prims instantiation, so the choice is immaterial there. -/
def P0 : Prims :=
  { dmask := fun _ x => x
    dropB := fun d _ => d
    bnF := fun _ x _ _ st => (x, st)
    lnF := fun x _ _ => x
    bnB := fun d _ => (d, [], [])
    lnB := fun d _ => (d, [], [])
    smLoss := fun s _ => (0, matMap (fun _ => 0) s) }

/-- Primitives with batchnorm_forward instantiated by the spec-modelled
train-mode batch normalization, for evaluating the stage-order theorem. -/
def P3 : Prims := { P0 with bnF := fun _ x g be st => (batchnormTrain x g be, st) }

/-- A concrete network with no hidden layers: one 1 x 1 weight matrix. -/
def net1 : FCNet :=
  { numLayers := 1
    normalization := none
    useDropout := false
    reg := 0
    params := [(PKey.W 1, Tensor.m [[1]]), (PKey.b 1, Tensor.v [0])]
    dropoutParam := none
    bnParams := []
    castD := id }

/-- A concrete batchnorm network with one hidden layer of width one. -/
def net3 : FCNet :=
  { numLayers := 2
    normalization := some NormKind.batchnorm
    useDropout := false
    reg := 0
    params :=
      [(PKey.W 1, Tensor.m [[1]]), (PKey.b 1, Tensor.v [0]),
       (PKey.gamma 1, Tensor.v [1]), (PKey.beta 1, Tensor.v [0]),
       (PKey.W 2, Tensor.m [[1]]), (PKey.b 2, Tensor.v [0])]
    dropoutParam := none
    bnParams := [{ mode := some Mode.train, st := none }]
    castD := id }

/-- C9: neither loss entry point writes to the parameter store: after
FullyConnectedNet.loss (with or without labels) and after TwoLayerNet.loss,
the params dict of the object is unchanged; gradients live in a separate
mapping. -/
theorem c9_params_frame (P : Prims) (net : FCNet) (X : Mat) (y : List Nat)
    (sm : Mat → List Nat → ℚ × Mat) (tnet : TLNet) (tX : Mat) (ty : Option (List Nat)) :
    (fcLoss P net X y).2.2.params = net.params ∧
    (fcTestScores P net X).2.params = net.params ∧
    (tlRun sm tnet tX ty).2.2.params = tnet.params := by
  refine ⟨rfl, rfl, ?_⟩
  cases ty <;> rfl

/-- C4 counterexample: with hidden_dims = [0], a dimension that is ≤ 0,
construction succeeds instead of failing with a ConfigurationError: the
constructor performs no dimension validation (zero-sized numpy arrays are
well defined). -/
theorem c4_counterexample :
    (fcInitChecked [0] 4 3 1 none 0 (1 / 100) id none zeroSampler).isOk = true := rfl

/-- C4 amended: FullyConnectedNet.__init__ performs no dimension
validation and defines no ConfigurationError; for every representable
(nonnegative) dimension configuration, zero-sized dimensions included,
construction runs to completion without error. -/
theorem c4_no_validation (hd : List Nat) (inD nC : Nat) (p : ℚ) (norm : Option NormKind)
    (reg ws : ℚ) (castD : ℚ → ℚ) (seed : Option Nat)
    (normal : ℚ → Nat → Nat → Nat → Mat) :
    (fcInitChecked hd inD nC p norm reg ws castD seed normal).isOk = true := rfl

/-- C5: for a network with zero hidden layers, the test-time forward pass
is exactly the single affine transform of the (dtype-cast, flattened)
input by W1 and b1: no activation, normalization or dropout stage runs. -/
theorem c5_zero_hidden (P : Prims) (net : FCNet) (X : Mat) (h : net.numLayers = 1) :
    (fcTestScores P net X).1 =
      (affine_forward (matMap net.castD X) (getM net.params (PKey.W 1))
        (getV net.params (PKey.b 1))).1 := by
  simp [fcTestScores, fcForward, fwdAux, lastIdx, setModes, h, affine_forward]

/-- C5 witness: the zero-hidden-layer theorem applied to the concrete
one-layer network net1. -/
theorem c5_zero_hidden_witness :
    (fcTestScores P0 net1 [[3]]).1 =
      (affine_forward (matMap net1.castD [[3]]) (getM net1.params (PKey.W 1))
        (getV net1.params (PKey.b 1))).1 :=
  c5_zero_hidden P0 net1 [[3]] rfl

/-- The reg_sum accumulated by the hidden forward loop equals the sum of
squared weights over the indices the loop visits. -/
theorem fwdAux_regSum (P : Prims) (ps : Params) (norm : Option NormKind) (useDrop : Bool)
    (dp : Option DropParam) (mode : Mode) :
    ∀ (steps i : Nat) (cur : Mat) (bns : List BnParam),
      (fwdAux P ps norm useDrop dp mode steps i cur bns).regSum = sumSqRange ps steps i
  | 0, _, _, _ => rfl
  | steps + 1, i, cur, bns => by
    simp only [fwdAux, sumSqRange,
      fwdAux_regSum P ps norm useDrop dp mode steps (i + 1)]

/-- C2 amended: the training loss returned by FullyConnectedNet.loss is
the softmax data loss plus 0.5 * reg times the sum of squared entries of
the hidden weight matrices W_1 .. W_L only: the final layer's weight
matrix is excluded from the regularization term, and biases and
normalization scale / shift parameters contribute nothing. -/
theorem c2_loss_value (P : Prims) (net : FCNet) (X : Mat) (y : List Nat) :
    (fcLoss P net X y).1 =
      (P.smLoss (fcForward P (setModes net Mode.train) Mode.train X).scores y).1 +
        1 / 2 * net.reg * hiddenWeightSumSq net := by
  simp only [fcLoss, fcForward, hiddenWeightSumSq, fwdAux_regSum, setModes]

/-- C2 counterexample: for the zero-hidden-layer network net1 with
reg = 1 under the concrete primitives P0, the returned loss omits the
final (here: only) weight matrix from the regularization term, so the
claimed formula summing over every weight matrix fails. -/
theorem c2_counterexample :
    (fcLoss P0 { net1 with reg := 1 } [[1]] [0]).1 ≠
      (P0.smLoss (fcForward P0 (setModes { net1 with reg := 1 } Mode.train)
          Mode.train [[1]]).scores [0]).1 +
        1 / 2 * (1 : ℚ) * allWeightSumSq { net1 with reg := 1 } := by
  norm_num [fcLoss, fcForward, fwdAux, setModes, allWeightSumSq, sumSqRange, lastIdx,
    net1, P0, getM, getV, aget, sumSqMat, matMap, affine_forward, addBias, matMul,
    dotQ, vecAdd]

/-- Adding a zero multiple of a vector and then an r multiple equals
adding the r multiple directly (truncating zipWith semantics included). -/
theorem vecAdd_zero_smul (a b : Vec) (r : ℚ) :
    vecAdd (vecAdd a (List.map (fun x => (0 : ℚ) * x) b)) (List.map (fun x => r * x) b) =
      vecAdd a (List.map (fun x => r * x) b) := by
  induction a generalizing b with
  | nil => rfl
  | cons x xs ih =>
    cases b with
    | nil => rfl
    | cons y ys =>
      have h1 : x + 0 * y + r * y = x + r * y := by ring
      exact congrArg₂ List.cons h1 (ih ys)

/-- Matrix form of vecAdd_zero_smul: A + 0 * B + r * B = A + r * B. -/
theorem matAdd_zero_smul (A B : Mat) (r : ℚ) :
    matAdd (matAdd A (smulMat 0 B)) (smulMat r B) = matAdd A (smulMat r B) := by
  induction A generalizing B with
  | nil => simp [matAdd]
  | cons a as ih =>
    cases B with
    | nil => simp [matAdd, smulMat]
    | cons b bs =>
      simp only [matAdd, smulMat, List.map_cons, List.zipWith_cons_cons]
      exact congrArg₂ _ (vecAdd_zero_smul a b r) (ih bs)

/-- The backward loop with regularization strength r produces exactly the
reg-0 gradients with r * W added to each weight entry the loop emits;
everything else, the upstream gradient threading included, is independent
of r. -/
theorem backLoop_reg (P : Prims) (ps : Params) (norm : Option NormKind) (useDrop : Bool)
    (ncs : List NCache) (dcs : List DCache) (r : ℚ) (n : Nat) :
    ∀ (lst : List ACache) (i : Nat) (dout : Mat), i < n →
      backLoop P ps norm useDrop r ncs dcs lst i dout =
        regAdjust r n ps (backLoop P ps norm useDrop 0 ncs dcs lst i dout)
  | [], _, _, _ => rfl
  | c :: rest, i, dout, h => by
    have ih := backLoop_reg P ps norm useDrop ncs dcs r n rest (i - 1)
    rcases norm with _ | nk
    · simp only [backLoop, regAdjust, List.map_cons, List.map_nil, List.nil_append,
        matAdd_zero_smul, if_pos h, ih _ (Nat.lt_of_le_of_lt (Nat.sub_le i 1) h)]
    · cases nk <;>
        simp only [backLoop, regAdjust, List.map_cons, List.map_append, List.map_nil,
          List.cons_append, List.nil_append, matAdd_zero_smul, if_pos h,
          ih _ (Nat.lt_of_le_of_lt (Nat.sub_le i 1) h)]

set_option maxRecDepth 8192 in
/-- Gradient assembly with regularization strength r equals the reg-0
assembly adjusted by r * W on the loop-emitted weight entries only; the
head entry for the final layer's weight is untouched. -/
theorem fcBackward_reg (P : Prims) (net : FCNet) (F : FwdOut) (dprob : Mat) (r : ℚ) :
    fcBackward P { net with reg := r } F dprob =
      regAdjust r (lastIdx net) net.params (fcBackward P { net with reg := 0 } F dprob) := by
  have hlt : 1 + (net.numLayers - 1) - 1 < 1 + (net.numLayers - 1) := by omega
  simp only [fcBackward, lastIdx]
  rw [backLoop_reg P net.params net.normalization net.useDropout F.ncaches F.dcaches r
      (1 + (net.numLayers - 1)) F.caches.reverse (1 + (net.numLayers - 1) - 1)
      (affine_backward dprob F.lastCache).1 hlt]
  simp only [regAdjust, List.map_cons, lt_self_iff_false, if_false]

set_option maxRecDepth 16384 in
/-- C1 amended: for every choice of the external primitives and every
input, the grads dict returned by loss with regularization strength r
equals the reg-0 grads with r * W_i added to each hidden-layer weight
gradient (indices 1 .. L) and nothing added to the final layer's weight
gradient: the += reg * W term is applied exactly once per hidden weight
matrix and never to W_{L+1}. -/
theorem c1_reg_structure (P : Prims) (net : FCNet) (X : Mat) (y : List Nat) (r : ℚ) :
    (fcLoss P { net with reg := r } X y).2.1 =
      regAdjust r (lastIdx net) net.params ((fcLoss P { net with reg := 0 } X y).2.1) := by
  have h1 : (fcLoss P { net with reg := r } X y).2.1 =
      fcBackward P { setModes net Mode.train with reg := r }
        (fcForward P (setModes net Mode.train) Mode.train X)
        (P.smLoss (fcForward P (setModes net Mode.train) Mode.train X).scores y).2 := rfl
  have h0 : (fcLoss P { net with reg := 0 } X y).2.1 =
      fcBackward P { setModes net Mode.train with reg := 0 }
        (fcForward P (setModes net Mode.train) Mode.train X)
        (P.smLoss (fcForward P (setModes net Mode.train) Mode.train X).scores y).2 := rfl
  rw [h1, h0]
  exact fcBackward_reg P (setModes net Mode.train) _ _ r

set_option maxRecDepth 16384 in
/-- C1 counterexample: for the zero-hidden-layer network net1 under the
concrete primitives P0, the final layer's weight gradient at reg = 1 is
not the reg-0 gradient plus 1 * W_1: the claimed relation
dW_i(reg) = dW_i(0) + reg * W_i fails for the final weight matrix, which
receives no += reg * W term. -/
theorem c1_counterexample :
    getM (fcLoss P0 { net1 with reg := 1 } [[1]] [0]).2.1 (PKey.W 1) ≠
      matAdd (getM (fcLoss P0 { net1 with reg := 0 } [[1]] [0]).2.1 (PKey.W 1))
        (smulMat 1 (getM net1.params (PKey.W 1))) := by
  have t1 : ([[(1 : ℚ)]] : Mat).transpose = [[1]] := by rfl
  have t0 : ([[(0 : ℚ)]] : Mat).transpose = [[0]] := by rfl
  norm_num [fcLoss, fcForward, fwdAux, setModes, lastIdx, net1, P0, getM, getV, aget,
    fcBackward, backLoop, affine_forward, affine_backward, affine_relu_forward,
    addBias, matMul, dotQ, vecAdd, matMap, matAdd, smulMat, colSums, t1, t0]
  norm_num [List.replicate]
  norm_num [t0]

/-- With dropout disabled the forward loop never consults the
dropout_param dictionary. -/
theorem fwdAux_nodrop_dp (P : Prims) (ps : Params) (norm : Option NormKind)
    (dp dp2 : Option DropParam) (mode : Mode) :
    ∀ (steps i : Nat) (cur : Mat) (bns : List BnParam),
      fwdAux P ps norm false dp mode steps i cur bns =
        fwdAux P ps norm false dp2 mode steps i cur bns
  | 0, _, _, _ => rfl
  | steps + 1, i, cur, bns => by
    have hl : layerStep P ps norm false dp mode i cur bns.head? =
        layerStep P ps norm false dp2 mode i cur bns.head? := rfl
    simp only [fwdAux, hl, fwdAux_nodrop_dp P ps norm dp dp2 mode steps]

/-- With the use_dropout flag set but no dropout_param stored, every
dropout stage is skipped, so the activations agree with the
dropout-disabled run. -/
theorem fwdAux_true_dpnone_out (P : Prims) (ps : Params) (norm : Option NormKind)
    (mode : Mode) :
    ∀ (steps i : Nat) (cur : Mat) (bns : List BnParam),
      (fwdAux P ps norm true none mode steps i cur bns).out =
        (fwdAux P ps norm false none mode steps i cur bns).out
  | 0, _, _, _ => rfl
  | steps + 1, i, cur, bns => by
    have hl : (layerStep P ps norm true none mode i cur bns.head?).1 =
        (layerStep P ps norm false none mode i cur bns.head?).1 := rfl
    simp only [fwdAux, hl, fwdAux_true_dpnone_out P ps norm mode steps]

/-- In test mode every dropout stage is the identity on activations, so
the hidden-loop output agrees with the dropout-disabled run. -/
theorem fwdAux_test_drop_out (P : Prims) (ps : Params) (norm : Option NormKind)
    (d : DropParam) (hm : d.mode = Mode.test) :
    ∀ (steps i : Nat) (cur : Mat) (bns : List BnParam),
      (fwdAux P ps norm true (some d) Mode.test steps i cur bns).out =
        (fwdAux P ps norm false none Mode.test steps i cur bns).out
  | 0, _, _, _ => rfl
  | steps + 1, i, cur, bns => by
    have hl : (layerStep P ps norm true (some d) Mode.test i cur bns.head?).1 =
        (layerStep P ps norm false none Mode.test i cur bns.head?).1 := by
      simp only [layerStep, dropout_forward, hm, reduceIte, Bool.false_eq_true, if_false]
    simp only [fwdAux, hl, fwdAux_test_drop_out P ps norm d hm steps]

/-- Test-mode scores of any network agree with the scores of the same
network with dropout turned off. -/
theorem fcTest_drop_invariant (P : Prims) (net : FCNet) (X : Mat) :
    (fcTestScores P net X).1 =
      (fcTestScores P { net with useDropout := false, dropoutParam := none } X).1 := by
  obtain ⟨nL, nor, ud, rg, ps, dp, bns, cd⟩ := net
  cases ud with
  | false =>
    simp only [fcTestScores, fcForward, setModes, reduceIte, Bool.false_eq_true, if_false,
      lastIdx, ite_self]
    rw [fwdAux_nodrop_dp P ps nor dp none Mode.test]
  | true =>
    cases dp with
    | none =>
      simp only [fcTestScores, fcForward, setModes, reduceIte, Bool.false_eq_true,
        if_false, lastIdx, ite_self, Option.map]
      rw [fwdAux_true_dpnone_out P ps nor Mode.test]
    | some d0 =>
      simp only [fcTestScores, fcForward, setModes, reduceIte, Bool.false_eq_true,
        if_false, lastIdx, ite_self, Option.map]
      rw [fwdAux_test_drop_out P ps nor { d0 with mode := Mode.test } rfl]

/-- C6: in test mode (labels absent) the scores returned by a network
constructed with any dropout strength p are identical to the scores of
the otherwise identical network constructed with dropout disabled
(dropout = 1): every test-mode dropout stage is the identity, with no
scaling and no mask. -/
theorem c6_dropout_test_identity (hd : List Nat) (inD nC : Nat) (p : ℚ)
    (norm : Option NormKind) (reg ws : ℚ) (castD : ℚ → ℚ) (seed : Option Nat)
    (normal : ℚ → Nat → Nat → Nat → Mat) (P : Prims) (X : Mat) :
    (fcTestScores P (fcInit hd inD nC p norm reg ws castD seed normal) X).1 =
      (fcTestScores P (fcInit hd inD nC 1 norm reg ws castD seed normal) X).1 := by
  have h2 : fcInit hd inD nC 1 norm reg ws castD seed normal =
      { fcInit hd inD nC p norm reg ws castD seed normal with
        useDropout := false, dropoutParam := none } := by
    norm_num [fcInit]
  rw [h2]
  exact fcTest_drop_invariant P _ X

/-- With dropout disabled the forward loop is independent of the dropout
primitives (the mask oracle and dropout_backward). -/
theorem fwdAux_nodrop_prims (P : Prims) (d1 d2 : Nat → Mat → Mat)
    (b1 b2 : Mat → DCache → Mat) (ps : Params) (norm : Option NormKind)
    (dp : Option DropParam) (mode : Mode) :
    ∀ (steps i : Nat) (cur : Mat) (bns : List BnParam),
      fwdAux { P with dmask := d1, dropB := b1 } ps norm false dp mode steps i cur bns =
        fwdAux { P with dmask := d2, dropB := b2 } ps norm false dp mode steps i cur bns
  | 0, _, _, _ => rfl
  | steps + 1, i, cur, bns => by
    have hl : layerStep { P with dmask := d1, dropB := b1 } ps norm false dp mode i cur
        bns.head? = layerStep { P with dmask := d2, dropB := b2 } ps norm false dp mode i
        cur bns.head? := rfl
    simp only [fwdAux, hl, fwdAux_nodrop_prims P d1 d2 b1 b2 ps norm dp mode steps]

/-- With dropout disabled the backward loop is independent of the dropout
primitives. -/
theorem backLoop_nodrop_prims (P : Prims) (d1 d2 : Nat → Mat → Mat)
    (b1 b2 : Mat → DCache → Mat) (ps : Params) (norm : Option NormKind) (reg : ℚ)
    (ncs : List NCache) (dcs : List DCache) :
    ∀ (lst : List ACache) (i : Nat) (dout : Mat),
      backLoop { P with dmask := d1, dropB := b1 } ps norm false reg ncs dcs lst i dout =
        backLoop { P with dmask := d2, dropB := b2 } ps norm false reg ncs dcs lst i dout
  | [], _, _ => rfl
  | c :: rest, i, dout => by
    simp only [backLoop, Bool.false_eq_true, if_false]
    rw [backLoop_nodrop_prims P d1 d2 b1 b2 ps norm reg ncs dcs rest]

/-- For a network whose use_dropout flag is off, the full training entry
point is independent of the dropout primitives. -/
theorem fcLoss_nodrop_prims (P : Prims) (d1 d2 : Nat → Mat → Mat)
    (b1 b2 : Mat → DCache → Mat) (net : FCNet) (hud : net.useDropout = false)
    (X : Mat) (y : List Nat) :
    fcLoss { P with dmask := d1, dropB := b1 } net X y =
      fcLoss { P with dmask := d2, dropB := b2 } net X y := by
  obtain ⟨nL, nor, ud, rg, ps, dp, bns, cd⟩ := net
  subst hud
  simp only [fcLoss, fcForward, fcBackward, setModes, lastIdx, Bool.false_eq_true,
    if_false]
  rw [fwdAux_nodrop_prims P d1 d2 b1 b2 ps nor dp Mode.train]
  rw [backLoop_nodrop_prims P d1 d2 b1 b2 ps nor rg]

/-- For a network whose use_dropout flag is off, the test entry point is
independent of the dropout primitives. -/
theorem fcTest_nodrop_prims (P : Prims) (d1 d2 : Nat → Mat → Mat)
    (b1 b2 : Mat → DCache → Mat) (net : FCNet) (hud : net.useDropout = false)
    (X : Mat) :
    fcTestScores { P with dmask := d1, dropB := b1 } net X =
      fcTestScores { P with dmask := d2, dropB := b2 } net X := by
  obtain ⟨nL, nor, ud, rg, ps, dp, bns, cd⟩ := net
  subst hud
  simp only [fcTestScores, fcForward, setModes, lastIdx, Bool.false_eq_true, if_false]
  rw [fwdAux_nodrop_prims P d1 d2 b1 b2 ps nor dp Mode.test]

/-- C10: the constructor argument dropout = 1 is the disabled sentinel:
use_dropout is exactly the boolean dropout != 1; when dropout = 1 the
dropout_param dictionary stays empty, and, regardless of mode (both entry
points, train and test), the network's behaviour is independent of the
dropout primitives -- no dropout primitive is ever consulted. -/
theorem c10_dropout_sentinel (hd : List Nat) (inD nC : Nat) (norm : Option NormKind)
    (reg ws : ℚ) (castD : ℚ → ℚ) (seed : Option Nat)
    (normal : ℚ → Nat → Nat → Nat → Mat) (p : ℚ) :
    (fcInit hd inD nC p norm reg ws castD seed normal).useDropout = decide (p ≠ 1) ∧
    (p = 1 → (fcInit hd inD nC p norm reg ws castD seed normal).dropoutParam = none) ∧
    (p = 1 → ∀ (P : Prims) (d1 d2 : Nat → Mat → Mat) (b1 b2 : Mat → DCache → Mat)
        (X : Mat) (y : List Nat),
      fcTestScores { P with dmask := d1, dropB := b1 }
          (fcInit hd inD nC p norm reg ws castD seed normal) X =
        fcTestScores { P with dmask := d2, dropB := b2 }
          (fcInit hd inD nC p norm reg ws castD seed normal) X ∧
      fcLoss { P with dmask := d1, dropB := b1 }
          (fcInit hd inD nC p norm reg ws castD seed normal) X y =
        fcLoss { P with dmask := d2, dropB := b2 }
          (fcInit hd inD nC p norm reg ws castD seed normal) X y) := by
  refine ⟨rfl, ?_, ?_⟩
  · intro hp
    subst hp
    norm_num [fcInit]
  · intro hp P d1 d2 b1 b2 X y
    subst hp
    have hud : (fcInit hd inD nC 1 norm reg ws castD seed normal).useDropout = false := by
      norm_num [fcInit]
    exact ⟨fcTest_nodrop_prims P d1 d2 b1 b2 _ hud X,
      fcLoss_nodrop_prims P d1 d2 b1 b2 _ hud X y⟩

/-- C10 witness: the sentinel theorem applied at dropout = 1 to a
concrete configuration. -/
theorem c10_dropout_sentinel_witness :
    (fcInit [] 2 2 1 none 0 0 id none zeroSampler).dropoutParam = none :=
  (c10_dropout_sentinel [] 2 2 none 0 0 id none zeroSampler 1).2.1 rfl

/-- C3: the implemented hidden-layer stage order contradicts the class
docstring and the spec.  The code calls affine_relu_forward first and
normalizes the relu OUTPUT (fc_net.py lines 278-289), while the docstring
(line 136) and spec order affine - norm - relu applies normalization to
the pre-activation.  On the one-hidden-layer batchnorm network net3 with
unit weights and input column (2, -2), the code produces scores
(1, -1) (the normalization sees the rectified column (2, 0)), whereas the
documented order produces (1, 0): normalizing the pre-activation keeps
the negative entry at -1, which relu then clamps to 0. -/
theorem c3_order_bug :
    (fcForward P3 net3 Mode.train [[2], [-2]]).scores = [[1], [-1]] ∧
    (affine_forward (specOrderHiddenLayer batchnormTrain [[2], [-2]] [[1]] [0] [1] [0])
        [[1]] [0]).1 = [[1], [0]] := by
  have hn1 : natSqrtB 1 = 1 := by decide
  have hn4 : natSqrtB 4 = 2 := by decide
  have hi4 : Int.toNat 4 = 4 := rfl
  have hs1 : ratSqrt 1 = 1 := by
    rw [ratSqrt]
    norm_num [hn1]
  have hs4 : ratSqrt 4 = 2 := by
    rw [ratSqrt]
    norm_num [hn1, hn4, hi4]
  have t1 : ([[(1 : ℚ)]] : Mat).transpose = [[1]] := by rfl
  have t2 : ([[(2 : ℚ)], [0]] : Mat).transpose = [[2, 0]] := by rfl
  have t3 : ([[(1 : ℚ), -1]] : Mat).transpose = [[1], [-1]] := by rfl
  have t4 : ([[(2 : ℚ)], [-2]] : Mat).transpose = [[2, -2]] := by rfl
  have gW1 : getM net3.params (PKey.W 1) = [[1]] := by simp [net3, getM, aget]
  have gb1 : getV net3.params (PKey.b 1) = [0] := by simp [net3, getV, aget]
  have gg1 : getV net3.params (PKey.gamma 1) = [1] := by simp [net3, getV, aget]
  have gB1 : getV net3.params (PKey.beta 1) = [0] := by simp [net3, getV, aget]
  have gW2 : getM net3.params (PKey.W 2) = [[1]] := by simp [net3, getM, aget]
  have gb2 : getV net3.params (PKey.b 2) = [0] := by simp [net3, getV, aget]
  have pnum : net3.numLayers = 2 := rfl
  have pnorm : net3.normalization = some NormKind.batchnorm := rfl
  have pud : net3.useDropout = false := rfl
  have pbn : net3.bnParams = [{ mode := some Mode.train, st := none }] := rfl
  have pcd : net3.castD = id := rfl
  have pdp : net3.dropoutParam = none := rfl
  constructor
  · norm_num [fcForward, fwdAux, layerStep, lastIdx, P3, P0, gW1, gb1, gg1, gB1, gW2,
      gb2, pnum, pnorm, pud, pbn, pcd, pdp, affine_forward, affine_relu_forward,
      addBias, matMul, dotQ, vecAdd, matMap, reluMat, batchnormTrain, max_def, t1, t2,
      t3, t4, hs1, hs4, List.zip_cons_cons, Function.comp]
  · norm_num [specOrderHiddenLayer, affine_forward, addBias, matMul, dotQ, vecAdd,
      reluMat, batchnormTrain, max_def, t1, t3, t4, hs1, hs4, List.zip_cons_cons]

/-- Keys laid down by the hidden-layer allocation loop, independent of the
sampled values. -/
theorem initHidden_keys (normal : ℚ → Nat → Nat → Nat → Mat) (ws : ℚ)
    (norm : Option NormKind) :
    ∀ (hd : List Nat) (prevDim cur : Nat),
      (initHidden normal ws norm hd prevDim cur).map Prod.fst =
        hidKeys norm.isSome hd.length cur
  | [], _, _ => rfl
  | d :: rest, prevDim, cur => by
    rcases norm with _ | nk
    · simp [initHidden, hidKeys, initHidden_keys normal ws none rest]
    · simp [initHidden, hidKeys, initHidden_keys normal ws (some nk) rest]

/-- The hidden forward loop produces exactly one affine_relu cache per
iteration. -/
theorem fwdAux_caches_len (P : Prims) (ps : Params) (norm : Option NormKind)
    (useDrop : Bool) (dp : Option DropParam) (mode : Mode) :
    ∀ (steps i : Nat) (cur : Mat) (bns : List BnParam),
      (fwdAux P ps norm useDrop dp mode steps i cur bns).caches.length = steps
  | 0, _, _, _ => rfl
  | steps + 1, i, cur, bns => by
    simp [fwdAux, fwdAux_caches_len P ps norm useDrop dp mode steps]

/-- Keys laid down by the backward loop, independent of the gradient
values. -/
theorem backLoop_keys (P : Prims) (ps : Params) (norm : Option NormKind)
    (useDrop : Bool) (reg : ℚ) (ncs : List NCache) (dcs : List DCache) :
    ∀ (lst : List ACache) (i : Nat) (dout : Mat),
      (backLoop P ps norm useDrop reg ncs dcs lst i dout).map Prod.fst =
        backKeys norm.isSome lst.length i
  | [], _, _ => rfl
  | c :: rest, i, dout => by
    rcases norm with _ | nk
    · simp [backLoop, backKeys, backLoop_keys P ps none useDrop reg ncs dcs rest]
    · cases nk <;>
        simp [backLoop, backKeys,
          backLoop_keys P ps (some NormKind.batchnorm) useDrop reg ncs dcs rest,
          backLoop_keys P ps (some NormKind.layernorm) useDrop reg ncs dcs rest]

/-- Membership in the hidden-allocation key list: exactly the W, b (and,
with normalization, gamma, beta) keys with index in the allocated range. -/
theorem mem_hidKeys (hasN : Bool) :
    ∀ (len cur : Nat) (k : PKey),
      (k ∈ hidKeys hasN len cur ↔
        match k with
        | PKey.W j => cur ≤ j ∧ j < cur + len
        | PKey.b j => cur ≤ j ∧ j < cur + len
        | PKey.gamma j => hasN = true ∧ cur ≤ j ∧ j < cur + len
        | PKey.beta j => hasN = true ∧ cur ≤ j ∧ j < cur + len)
  | 0, cur, k => by cases hasN <;> cases k <;> simp [hidKeys] <;> omega
  | len + 1, cur, k => by
    have ih := mem_hidKeys hasN len (cur + 1) k
    cases hasN <;> cases k <;> simp_all [hidKeys] <;> omega

/-- Membership in the backward-loop key list: exactly the keys with index
in the range the countdown visits. -/
theorem mem_backKeys (hasN : Bool) :
    ∀ (len i : Nat) (k : PKey), len ≤ i →
      (k ∈ backKeys hasN len i ↔
        match k with
        | PKey.W j => i - len < j ∧ j ≤ i
        | PKey.b j => i - len < j ∧ j ≤ i
        | PKey.gamma j => hasN = true ∧ i - len < j ∧ j ≤ i
        | PKey.beta j => hasN = true ∧ i - len < j ∧ j ≤ i)
  | 0, i, k, _ => by cases hasN <;> cases k <;> simp [backKeys] <;> omega
  | len + 1, i, k, h => by
    have ih := mem_backKeys hasN len (i - 1) k (by omega)
    cases hasN <;> cases k <;> simp_all [backKeys] <;> omega

/-- The key list of the params dict a constructed network carries. -/
theorem fcInit_keys (hd : List Nat) (inD nC : Nat) (p : ℚ) (norm : Option NormKind)
    (reg ws : ℚ) (castD : ℚ → ℚ) (seed : Option Nat)
    (normal : ℚ → Nat → Nat → Nat → Mat) :
    (fcInit hd inD nC p norm reg ws castD seed normal).params.map Prod.fst =
      hidKeys norm.isSome hd.length 1 ++
        [PKey.W (1 + hd.length), PKey.b (1 + hd.length)] := by
  have hk : ∀ l : Params,
      (l.map (fun kt => (kt.1, castT castD kt.2))).map Prod.fst = l.map Prod.fst := by
    intro l
    induction l with
    | nil => rfl
    | cons a t ih => simp [ih]
  simp only [fcInit]
  rw [hk]
  simp [initHidden_keys normal ws norm hd]

/-- C7: for every constructed network and every training call, the grads
dict returned by loss has exactly the key set of self.params: one W and b
entry per layer 1 .. L+1, plus one gamma and beta entry per hidden layer
iff normalization is enabled -- no missing keys and no extra keys. -/
theorem c7_grads_keys (hd : List Nat) (inD nC : Nat) (p : ℚ) (norm : Option NormKind)
    (reg ws : ℚ) (castD : ℚ → ℚ) (seed : Option Nat)
    (normal : ℚ → Nat → Nat → Nat → Mat) (P : Prims) (X : Mat) (y : List Nat)
    (k : PKey) :
    (k ∈ (fcLoss P (fcInit hd inD nC p norm reg ws castD seed normal) X y).2.1.map
        Prod.fst ↔
      k ∈ (fcInit hd inD nC p norm reg ws castD seed normal).params.map Prod.fst) := by
  have hnum : (fcInit hd inD nC p norm reg ws castD seed normal).numLayers =
      1 + hd.length := rfl
  have hnorm : (fcInit hd inD nC p norm reg ws castD seed normal).normalization =
      norm := rfl
  have hg : (fcLoss P (fcInit hd inD nC p norm reg ws castD seed normal) X y).2.1.map
      Prod.fst =
      PKey.W (1 + hd.length) :: PKey.b (1 + hd.length) ::
        backKeys norm.isSome hd.length hd.length := by
    simp only [fcLoss, fcBackward, fcForward, lastIdx, List.map_cons]
    rw [backLoop_keys]
    simp [hnum, hnorm, setModes, List.length_reverse, fwdAux_caches_len,
      Nat.add_sub_cancel_left]
  rw [hg, fcInit_keys]
  simp only [List.mem_cons, List.mem_append]
  rw [mem_hidKeys norm.isSome hd.length 1 k,
    mem_backKeys norm.isSome hd.length hd.length k (le_refl hd.length)]
  cases hN : norm.isSome <;> cases k <;> simp [hN] <;> omega

/-- Dictionary access commutes with the dtype-cast pass of __init__. -/
theorem aget_castMap (f : ℚ → ℚ) :
    ∀ (l : Params) (k : PKey),
      aget (l.map (fun kt => (kt.1, castT f kt.2))) k = (aget l k).map (castT f)
  | [], _ => rfl
  | (k0, t) :: rest, k => by
    by_cases h : k0 = k <;> simp [aget, h, aget_castMap f rest]

/-- Dictionary access on an appended association list: the first list
wins, misses fall through. -/
theorem aget_append :
    ∀ (l1 l2 : Params) (k : PKey),
      aget (l1 ++ l2) k =
        match aget l1 k with
        | some t => some t
        | none => aget l2 k
  | [], _, _ => rfl
  | (k0, t) :: rest, l2, k => by
    by_cases h : k0 = k <;> simp [aget, h, aget_append rest l2]

/-- The hidden allocation loop stores nothing below its starting index. -/
theorem initHidden_aget_below (normal : ℚ → Nat → Nat → Nat → Mat) (ws : ℚ)
    (norm : Option NormKind) :
    ∀ (hd : List Nat) (prevDim cur q : Nat), q < cur →
      aget (initHidden normal ws norm hd prevDim cur) (PKey.W q) = none ∧
      aget (initHidden normal ws norm hd prevDim cur) (PKey.b q) = none ∧
      aget (initHidden normal ws norm hd prevDim cur) (PKey.gamma q) = none ∧
      aget (initHidden normal ws norm hd prevDim cur) (PKey.beta q) = none
  | [], _, _, _, _ => ⟨rfl, rfl, rfl, rfl⟩
  | d :: rest, prevDim, cur, q, h => by
    have ih := initHidden_aget_below normal ws norm rest d (cur + 1) q (by omega)
    have hne : ¬(cur = q) := by omega
    rcases norm with _ | nk <;>
      simp [initHidden, aget, hne, ih.1, ih.2.1, ih.2.2.1, ih.2.2.2]

/-- Full characterization of what the hidden allocation loop stores at
offset j from its starting index: weight sampled at the chained
dimensions, zero bias, and ones / zeros scale and shift exactly when
normalization is enabled. -/
theorem initHidden_aget_find (normal : ℚ → Nat → Nat → Nat → Mat) (ws : ℚ)
    (norm : Option NormKind) :
    ∀ (hd : List Nat) (prevDim cur j : Nat),
      aget (initHidden normal ws norm hd prevDim cur) (PKey.W (cur + j)) =
        (if j < hd.length then
          some (Tensor.m (normal ws ((prevDim :: hd).getD j 0) (hd.getD j 0) (cur + j)))
        else none) ∧
      aget (initHidden normal ws norm hd prevDim cur) (PKey.b (cur + j)) =
        (if j < hd.length then some (Tensor.v (List.replicate (hd.getD j 0) 0))
        else none) ∧
      aget (initHidden normal ws norm hd prevDim cur) (PKey.gamma (cur + j)) =
        (if j < hd.length ∧ norm.isSome = true then
          some (Tensor.v (List.replicate (hd.getD j 0) 1))
        else none) ∧
      aget (initHidden normal ws norm hd prevDim cur) (PKey.beta (cur + j)) =
        (if j < hd.length ∧ norm.isSome = true then
          some (Tensor.v (List.replicate (hd.getD j 0) 0))
        else none)
  | [], prevDim, cur, j => by simp [initHidden, aget]
  | d :: rest, prevDim, cur, j => by
    cases j with
    | zero =>
      have hmiss := initHidden_aget_below normal ws norm rest d (cur + 1) cur (by omega)
      rcases norm with _ | nk <;>
        simp [initHidden, aget, hmiss.2.2.1, hmiss.2.2.2]
    | succ j2 =>
      have harr : cur + (j2 + 1) = cur + 1 + j2 := by omega
      have hne : ¬(cur = cur + 1 + j2) := by omega
      have ih := initHidden_aget_find normal ws norm rest d (cur + 1) j2
      rcases norm with _ | nk <;>
        simp [initHidden, aget, harr, hne, ih.1, ih.2.1, ih.2.2.1, ih.2.2.2,
          Nat.succ_lt_succ_iff, List.getD_cons_succ]

/-- The input-dimension chain restricted to hidden layers agrees with the
full dimension sequence. -/
theorem dims_hidden_in (inD nC : Nat) :
    ∀ (hd : List Nat) (j : Nat), j ≤ hd.length →
      (inD :: hd).getD j 0 = dimAt hd inD nC j
  | hd, 0, _ => rfl
  | [], j + 1, h => by simp at h
  | d :: rest, j + 1, h => by
    simp only [dimAt, List.cons_append, List.getD_cons_succ]
    exact dims_hidden_in d nC rest j (by simpa using h)

/-- The output-dimension chain restricted to hidden layers agrees with
the full dimension sequence shifted by one. -/
theorem dims_hidden_out (inD nC : Nat) :
    ∀ (hd : List Nat) (j : Nat), j < hd.length →
      hd.getD j 0 = dimAt hd inD nC (j + 1)
  | [], j, h => by simp at h
  | d :: rest, 0, _ => rfl
  | d :: rest, j + 1, h => by
    simp only [dimAt, List.cons_append, List.getD_cons_succ]
    exact dims_hidden_out d nC rest j (by simpa using h)

/-- The prev_dim value left by the hidden loop is the second-to-last
entry of the dimension sequence. -/
theorem dims_last (nC : Nat) :
    ∀ (hd : List Nat) (inD : Nat),
      hd.getLastD inD = dimAt hd inD nC hd.length
  | [], _ => rfl
  | d :: rest, inD => by
    simp only [dimAt, List.getLastD_cons, List.length_cons, List.cons_append,
      List.getD_cons_succ]
    exact dims_last nC rest d

/-- The last entry of the dimension sequence is the class count. -/
theorem dims_numClasses (hd : List Nat) (inD nC : Nat) :
    dimAt hd inD nC (hd.length + 1) = nC := by
  simp only [dimAt, List.getD_cons_succ]
  induction hd with
  | nil => rfl
  | cons d rest ih => simp [List.getD_cons_succ, ih]

set_option maxRecDepth 8192 in
/-- C8: construction allocates, for every layer i = 1 .. L+1, one weight
matrix obtained from the normal sampler invoked with standard deviation
weight_scale and shape (dim_in, dim_out) following the dimension chain
inputDim, hiddenDims..., numClasses, and one zero bias of length dim_out;
for hidden layers only, and only when normalization is enabled, a ones
scale and a zeros shift of length dim_out (and no scale / shift entries
otherwise or for the final layer); every stored tensor is passed through
the dtype cast.  The sampler's randomness is an oracle argument, so the
distributional part of the claim is represented by the sampler call. -/
theorem c8_init_allocation (hd : List Nat) (inD nC : Nat) (p : ℚ)
    (norm : Option NormKind) (reg ws : ℚ) (castD : ℚ → ℚ) (seed : Option Nat)
    (normal : ℚ → Nat → Nat → Nat → Mat) (i : Nat) (h1 : 1 ≤ i)
    (h2 : i ≤ hd.length + 1) :
    aget (fcInit hd inD nC p norm reg ws castD seed normal).params (PKey.W i) =
        some (Tensor.m (matMap castD
          (normal ws (dimAt hd inD nC (i - 1)) (dimAt hd inD nC i) i))) ∧
    aget (fcInit hd inD nC p norm reg ws castD seed normal).params (PKey.b i) =
        some (Tensor.v ((List.replicate (dimAt hd inD nC i) 0).map castD)) ∧
    (norm.isSome = true ∧ i ≤ hd.length →
      aget (fcInit hd inD nC p norm reg ws castD seed normal).params (PKey.gamma i) =
          some (Tensor.v ((List.replicate (dimAt hd inD nC i) 1).map castD)) ∧
      aget (fcInit hd inD nC p norm reg ws castD seed normal).params (PKey.beta i) =
          some (Tensor.v ((List.replicate (dimAt hd inD nC i) 0).map castD))) ∧
    ((norm = none ∨ i = hd.length + 1) →
      aget (fcInit hd inD nC p norm reg ws castD seed normal).params (PKey.gamma i) =
          none ∧
      aget (fcInit hd inD nC p norm reg ws castD seed normal).params (PKey.beta i) =
          none) := by
  have hfind := initHidden_aget_find normal ws norm hd inD 1 (i - 1)
  rw [show 1 + (i - 1) = i from by omega] at hfind
  simp only [fcInit, aget_castMap, aget_append]
  by_cases hle : i ≤ hd.length
  · have hlt : i - 1 < hd.length := by omega
    have e1 : (inD :: hd).getD (i - 1) 0 = dimAt hd inD nC (i - 1) :=
      dims_hidden_in inD nC hd (i - 1) (by omega)
    have e2 : hd.getD (i - 1) 0 = dimAt hd inD nC i := by
      have e := dims_hidden_out inD nC hd (i - 1) hlt
      rwa [show i - 1 + 1 = i from by omega] at e
    refine ⟨?_, ?_, ?_, ?_⟩
    · rw [hfind.1, if_pos hlt, e1, e2]
      simp [castT]
    · rw [hfind.2.1, if_pos hlt, e2]
      simp [castT]
    · intro hss
      constructor
      · rw [hfind.2.2.1, if_pos ⟨hlt, hss.1⟩, e2]
        simp [castT]
      · rw [hfind.2.2.2, if_pos ⟨hlt, hss.1⟩, e2]
        simp [castT]
    · intro hor
      have hn : norm = none := by
        rcases hor with h | h
        · exact h
        · omega
      subst hn
      constructor
      · rw [hfind.2.2.1, if_neg (by simp)]
        simp [aget]
      · rw [hfind.2.2.2, if_neg (by simp)]
        simp [aget]
  · have hieq : i = hd.length + 1 := by omega
    subst hieq
    have hnlt : ¬(hd.length + 1 - 1 < hd.length) := by omega
    have hc : 1 + hd.length = hd.length + 1 := by omega
    have e3 : hd.getLastD inD = dimAt hd inD nC (hd.length + 1 - 1) := by
      simpa using dims_last nC hd inD
    have e4 : dimAt hd inD nC (hd.length + 1) = nC := dims_numClasses hd inD nC
    refine ⟨?_, ?_, ?_, ?_⟩
    · rw [hfind.1, if_neg hnlt]
      rw [e3, e4]
      simp [aget, hc, castT]
    · simp [hfind.2.1, hnlt, aget, hc, e4, castT]
    · intro hss
      omega
    · intro hor
      constructor
      · simp [hfind.2.2.1, hnlt, aget, hc]
      · simp [hfind.2.2.2, hnlt, aget, hc]

/-- C8 witness: the allocation theorem applied to a concrete batchnorm
configuration at the first layer. -/
theorem c8_init_allocation_witness :
    aget (fcInit [2] 3 4 1 (some NormKind.batchnorm) 0 (1 / 2) id none
        zeroSampler).params (PKey.W 1) =
      some (Tensor.m (matMap id
        (zeroSampler (1 / 2) (dimAt [2] 3 4 0) (dimAt [2] 3 4 1) 1))) :=
  (c8_init_allocation [2] 3 4 1 (some NormKind.batchnorm) 0 (1 / 2) id none
    zeroSampler 1 (by decide) (by decide)).1

end FcNet
